import Mathlib

/-!
Verification of the WARC/WET streaming parser (the single Python module
under src/parser/ of the repository).

Shallow embedding conventions:
* byte strings are List Nat (one Nat per byte);
* decoded text is List Char;
* Python bytes.find is findSub (Option Nat) and pyFind (Int, -1 when absent);
* the external collaborators, chardet.detect and bytes.decode, are oracle
  functions bundled in a Ctx structure;
* Python exceptions raised by the embedded code become Except values;
* the generator Parser.parse is modelled as the fully-consumed run: the list
  of yielded entries together with the final counter state;
* while loops on the accumulation buffer are modelled with an explicit fuel
  argument set to the buffer length, which is enough because every iteration
  drops at least the two-byte marker tail from the buffer.
-/

namespace Warc

/-- LINE_DELIMITER is the two-byte line terminator CR LF. -/
def LINE_DELIMITER : List Nat := [13, 10]

/-- BLOCK_DELIMITER is built by the source from the format string with three
occurrences of the line delimiter around the ASCII text WARC/1.0 :
line delimiter, line delimiter, "WARC/1.0", line delimiter. -/
def BLOCK_DELIMITER : List Nat :=
  LINE_DELIMITER ++ LINE_DELIMITER ++ ("WARC/1.0".toList.map Char.toNat) ++ LINE_DELIMITER

/-- Python bytes.find as an Option: first index where pat occurs in buf.
A match at index 0 is detected by comparing the length-long take with pat. -/
def findSub (buf pat : List Nat) : Option Nat :=
  match buf with
  | [] => if pat = [] then some 0 else none
  | _ :: rest =>
      if buf.take pat.length = pat then some 0
      else (findSub rest pat).map (· + 1)

/-- Python bytes.find proper: -1 when the pattern is absent. -/
def pyFind (buf pat : List Nat) : Int :=
  match findSub buf pat with
  | none => -1
  | some i => (i : Int)

/-- One pass of the inner while loop of Parser.parse: repeatedly search the
buffer for BLOCK_DELIMITER; when found at index i, cut the slice
buf[:i+len(LINE_DELIMITER)] and continue on buf[i+2*len(LINE_DELIMITER):].
Fuel bounds the number of iterations; fuel = buffer length always suffices. -/
def drainGo : Nat → List Nat → List (List Nat) × List Nat
  | 0, buf => ([], buf)
  | fuel + 1, buf =>
      match findSub buf BLOCK_DELIMITER with
      | none => ([], buf)
      | some i =>
          let slice := buf.take (i + LINE_DELIMITER.length)
          let rest := buf.drop (i + 2 * LINE_DELIMITER.length)
          let cont := drainGo fuel rest
          (slice :: cont.1, cont.2)

/-- Drain the buffer of all complete records currently in it. -/
def drainBuffer (buf : List Nat) : List (List Nat) × List Nat :=
  drainGo buf.length buf

/-- The raw-slice view of the chunked reading loop of Parser.parse: append
each chunk to the buffer, drain, and at end of stream flush a non-empty
remaining buffer as the final record. -/
def splitGo : List (List Nat) → List Nat → List (List Nat)
  | [], buf => if 0 < buf.length then [buf] else []
  | c :: rest, buf =>
      let d := drainBuffer (buf ++ c)
      d.1 ++ splitGo rest d.2

/-- Cut the byte stream s into the successive chunks returned by f.read(k).
Fuel = length of s suffices since every read consumes at least one byte. -/
def chunksOfGo (k : Nat) : Nat → List Nat → List (List Nat)
  | _, [] => []
  | 0, _ => []
  | fuel + 1, s => s.take k :: chunksOfGo k fuel (s.drop k)

/-- The chunk sequence produced by repeatedly calling f.read(k). For k = 0
the read returns an empty chunk at once, so the iteration yields no chunks. -/
def chunksOf (k : Nat) (s : List Nat) : List (List Nat) :=
  if k = 0 then [] else chunksOfGo k s.length s

/-- Raw record slices obtained when the decompressed input s is read in
chunks of size k. -/
def parseRawChunked (k : Nat) (s : List Nat) : List (List Nat) :=
  splitGo (chunksOf k s) []

/-- Raw record slices obtained when the whole input arrives in a single read. -/
def parseRaw (s : List Nat) : List (List Nat) :=
  splitGo [s] []

/-- The end-of-stream flush: a non-empty final buffer is one more record. -/
def flushTail (b : List Nat) : List (List Nat) :=
  if 0 < b.length then [b] else []

/-- The tail of BLOCK_DELIMITER that stays in the buffer after a cut: the
splitter drops only i + 2*len(LINE_DELIMITER) bytes, so the last ten bytes
of the fourteen-byte marker (the text WARC/1.0 plus one line delimiter)
remain at the front of the next slice. -/
def wMarkerTail : List Nat := BLOCK_DELIMITER.drop (2 * LINE_DELIMITER.length)

/-- Well-formedness of a record sequence relative to the splitter: scanning
from the current buffer head a, the next marker occurrence is exactly the
one inserted between records, and the final buffer holds no marker. -/
def cleanFrom (a : List Nat) : List (List Nat) → Bool
  | [] => findSub a BLOCK_DELIMITER == none
  | r :: rest =>
      (findSub (a ++ BLOCK_DELIMITER) BLOCK_DELIMITER == some a.length) &&
      cleanFrom (wMarkerTail ++ r) rest

/-- The slices cut (not counting the final flush) when the buffer head is a. -/
def cutSlices (a : List Nat) : List (List Nat) → List (List Nat)
  | [] => []
  | r :: rest => (a ++ LINE_DELIMITER) :: cutSlices (wMarkerTail ++ r) rest

/-- The bytes left in the buffer after all cuts when the buffer head is a. -/
def finalRem (a : List Nat) : List (List Nat) → List Nat
  | [] => a
  | r :: rest => finalRem (wMarkerTail ++ r) rest

/-- All raw slices the splitter emits (cuts plus the final flush). -/
def slicesFrom (a : List Nat) : List (List Nat) → List (List Nat)
  | [] => [a]
  | r :: rest => (a ++ LINE_DELIMITER) :: slicesFrom (wMarkerTail ++ r) rest

/-- Claim-side operation, from the spec wording of section 4.1 and 8: strip
the one trailing line delimiter that the cut convention appends to a slice. -/
def stripTrailingDelim (l : List Nat) : List Nat :=
  if LINE_DELIMITER.isSuffixOf l then l.take (l.length - LINE_DELIMITER.length) else l

/-- The ASCII whitespace characters removed by Python str.strip. -/
def isPySpace (c : Char) : Bool :=
  c = ' ' || c = '\t' || c = '\n' || c = '\x0b' || c = '\x0c' || c = '\r'

/-- Python str.lstrip().rstrip(): drop whitespace at both ends. -/
def pstrip (l : List Char) : List Char :=
  ((l.dropWhile isPySpace).reverse.dropWhile isPySpace).reverse

/-- Python str.split with a one-character separator: always returns at least
one piece, and the empty string yields one empty piece. -/
def pySplit (sep : Char) : List Char → List (List Char)
  | [] => [[]]
  | c :: rest =>
      let r := pySplit sep rest
      if c = sep then [] :: r
      else
        match r with
        | [] => [[c]]
        | h :: t => (c :: h) :: t

/-- Lines 54 to 58 of the source: split the header line on ':', strip every
piece, then force a two-element key/value shape: a lone piece gains an empty
value, and more than two pieces are rejoined with ':' after the first. The
empty-list arm is unreachable because pySplit never returns an empty list
(in the source an assert guards the same impossibility). -/
def splitKV (l : List Char) : List Char × List Char :=
  match (pySplit ':' l).map pstrip with
  | [] => ([], [])
  | [k] => (k, [])
  | [k, v] => (k, v)
  | k :: rest => (k, List.intercalate [':'] rest)

/-- Append a value for a key in the insertion-ordered multi-valued header
mapping, as the source's dict of lists does. -/
def addHeader (d : List (List Char × List (List Char))) (k : List Char)
    (v : List Char) : List (List Char × List (List Char)) :=
  if d.any (fun p => p.1 == k) then
    d.map (fun p => if p.1 == k then (p.1, p.2 ++ [v]) else p)
  else d ++ [(k, [v])]

/-- Models line.decode() under the source's stated assumption that the
header block holds ASCII bytes only. -/
def decodeLine (lb : List Nat) : List Char := lb.map Char.ofNat

/-- Python bytes.split with a multi-byte separator (used with the line
delimiter). Fuel = length suffices: each step consumes the separator. -/
def pySplitSeqGo (sep : List Nat) : Nat → List Nat → List (List Nat)
  | 0, l => [l]
  | fuel + 1, l =>
      match findSub l sep with
      | none => [l]
      | some i => l.take i :: pySplitSeqGo sep fuel (l.drop (i + sep.length))

/-- Python bytes.split on a multi-byte separator. -/
def pySplitSeq (sep l : List Nat) : List (List Nat) := pySplitSeqGo sep l.length l

/-- One iteration of the header loop: decode the line, skip it when empty,
otherwise split into key and value, fold the key to lowercase when the
case-sensitivity flag is off, and append into the mapping. -/
def parseHeaderLineInto (cs : Bool) (d : List (List Char × List (List Char)))
    (lineBytes : List Nat) : List (List Char × List (List Char)) :=
  let l := decodeLine lineBytes
  if l.length = 0 then d
  else
    let kv := splitKV l
    let key := if cs then kv.1 else kv.1.map Char.toLower
    addHeader d key kv.2

/-- WetEntry._parse_header: split the header block on the line delimiter and
fold every line into the mapping. -/
def parseHeaderBlock (headerBlock : List Nat) (cs : Bool) :
    List (List Char × List (List Char)) :=
  (pySplitSeq LINE_DELIMITER headerBlock).foldl (parseHeaderLineInto cs) []

/-- A chardet.detect result: proposed encoding name (None is possible) and a
confidence score, modelled as a rational in the unit interval. -/
structure Detection where
  encoding : Option (List Char)
  confidence : Rat

/-- Exceptions the external bytes.decode call can raise; the source's bare
except clause treats every one of them alike. -/
inductive PyExc where
  | unicodeDecodeError
  | typeError
  | lookupError
  | otherError
deriving DecidableEq

/-- External collaborators of the record decoder: the chardet.detect oracle
and the bytes.decode primitive for a proposed encoding name. -/
structure Ctx where
  detect : List Nat → Detection
  decodeWith : List Nat → Option (List Char) → Except PyExc (List Char)

/-- The two classified record-level errors of the source. -/
inductive BodyError where
  | encodingDetectionError (encoding : Option (List Char))
  | decodingFailureError (encoding : Option (List Char)) (blockHead : List Nat)
deriving DecidableEq

/-- WetEntry._parse_body: gate on detector confidence below 0.5, otherwise
decode with the proposed encoding; any exception from the decode call
becomes DecodingFailureError carrying the encoding name and the first
twenty body bytes. -/
def parseBody (ctx : Ctx) (bodyBlock : List Nat) :
    Except BodyError (List Char × Option (List Char)) :=
  let detection := ctx.detect bodyBlock
  if detection.confidence < 1/2 then
    .error (.encodingDetectionError detection.encoding)
  else
    match ctx.decodeWith bodyBlock detection.encoding with
    | .ok s => .ok (s, detection.encoding)
    | .error _ => .error (.decodingFailureError detection.encoding (bodyBlock.take 20))

/-- A successfully constructed entry: header mapping, decoded body and the
encoding name recorded by the decode step. -/
structure WetEntry where
  header : List (List Char × List (List Char))
  body : List Char
  encoding : Option (List Char)
deriving DecidableEq

/-- WetEntry.__init__: find the first double line delimiter (-1 when
absent), cut the header bytes before it (one delimiter included) and the
body bytes after it, then parse both parts. -/
def mkWetEntry (ctx : Ctx) (cs : Bool) (block : List Nat) :
    Except BodyError WetEntry :=
  let headerTailIndex : Int :=
    pyFind block (LINE_DELIMITER ++ LINE_DELIMITER) + LINE_DELIMITER.length
  let bodyHeadIndex : Int := headerTailIndex + LINE_DELIMITER.length
  let hdr := parseHeaderBlock (block.take headerTailIndex.toNat) cs
  match parseBody ctx (block.drop bodyHeadIndex.toNat) with
  | .ok bd => .ok ⟨hdr, bd.1, bd.2⟩
  | .error e => .error e

/-- Parser state: the two per-run counters. -/
structure Parser where
  loaded_counter : Nat
  skip_counter : Nat
deriving DecidableEq

/-- Parser.__init__. -/
def Parser.init : Parser := ⟨0, 0⟩

/-- The inner while loop of Parser.parse with decoding: cut each record
slice, build a WetEntry, yield it and count one loaded entry on success,
count one skipped entry when a classified error is raised, and in both
cases (the finally clause) advance the buffer past the slice and the full
marker head. Returns yielded entries, loaded delta, skipped delta and the
remaining buffer. -/
def drainParse (ctx : Ctx) (cs : Bool) : Nat → List Nat →
    List WetEntry × Nat × Nat × List Nat
  | 0, buf => ([], 0, 0, buf)
  | fuel + 1, buf =>
      match findSub buf BLOCK_DELIMITER with
      | none => ([], 0, 0, buf)
      | some i =>
          let slice := buf.take (i + LINE_DELIMITER.length)
          let rest := buf.drop (i + 2 * LINE_DELIMITER.length)
          let cont := drainParse ctx cs fuel rest
          match mkWetEntry ctx cs slice with
          | .ok e => (e :: cont.1, cont.2.1 + 1, cont.2.2.1, cont.2.2.2)
          | .error _ => (cont.1, cont.2.1, cont.2.2.1 + 1, cont.2.2.2)

/-- The chunked reading loop of Parser.parse plus the end-of-stream flush of
a non-empty final buffer, returning the yielded entries and the loaded and
skipped counts contributed by the run. -/
def parseChunksGo (ctx : Ctx) (cs : Bool) : List (List Nat) → List Nat →
    List WetEntry × Nat × Nat
  | [], buf =>
      if 0 < buf.length then
        match mkWetEntry ctx cs buf with
        | .ok e => ([e], 1, 0)
        | .error _ => ([], 0, 1)
      else ([], 0, 0)
  | c :: rest, buf =>
      let d := drainParse ctx cs (buf ++ c).length (buf ++ c)
      let t := parseChunksGo ctx cs rest d.2.2.2
      (d.1 ++ t.1, d.2.1 + t.2.1, d.2.2.1 + t.2.2)

/-- Parser.parse: reset both counters at the start of the invocation, then
run the reading loop on the chunk sequence delivered by the decompression
stream, starting from an empty buffer. The fully-consumed generator is
modelled by the list of yielded entries plus the final parser state. -/
def Parser.parse (p : Parser) (ctx : Ctx) (cs : Bool)
    (chunks : List (List Nat)) : List WetEntry × Parser :=
  let p0 : Parser := { p with loaded_counter := 0, skip_counter := 0 }
  let r := parseChunksGo ctx cs chunks []
  (r.1, { p0 with loaded_counter := p0.loaded_counter + r.2.1,
                  skip_counter := p0.skip_counter + r.2.2 })

/-- Decode a list of already-cut raw slices in order, counting successes
and skips. -/
def processSlices (ctx : Ctx) (cs : Bool) : List (List Nat) →
    List WetEntry × Nat × Nat
  | [] => ([], 0, 0)
  | sl :: rest =>
      let t := processSlices ctx cs rest
      match mkWetEntry ctx cs sl with
      | .ok e => (e :: t.1, t.2.1 + 1, t.2.2)
      | .error _ => (t.1, t.2.1, t.2.2 + 1)

/-- Errors of the end-of-run report in __main__. -/
inductive PyRunError where
  | zeroDivisionError
deriving DecidableEq

/-- The end-of-run skip-ratio report in __main__, the float division
float(skip) / (loaded + skip): Python raises ZeroDivisionError exactly when
the denominator is zero, and the source has no guard around it. -/
def mainSkipRatio (p : Parser) : Except PyRunError Rat :=
  if p.loaded_counter + p.skip_counter = 0 then .error .zeroDivisionError
  else .ok ((p.skip_counter : Rat) / ((p.loaded_counter : Rat) + (p.skip_counter : Rat)))

/-- Detector oracle answering a fixed encoding with confidence 49/100. -/
def detectLow : List Nat → Detection := fun _ => ⟨some "ascii".toList, 49/100⟩

/-- Detector oracle answering a fixed encoding with confidence exactly 1/2. -/
def detectHalf : List Nat → Detection := fun _ => ⟨some "ascii".toList, 1/2⟩

/-- Decode primitive that always succeeds with an empty text. -/
def decodeOkEmpty : List Nat → Option (List Char) → Except PyExc (List Char) :=
  fun _ _ => .ok []

/-- Context whose detector reports confidence 49/100. -/
def ctxLow : Ctx := ⟨detectLow, decodeOkEmpty⟩

/-- Context whose detector reports confidence exactly 1/2. -/
def ctxHalf : Ctx := ⟨detectHalf, decodeOkEmpty⟩

/-- Detector oracle that proposes no encoding at all (None) with full
confidence. -/
def detectNone : List Nat → Detection := fun _ => ⟨none, 1⟩

/-- Decode primitive mirroring Python: decoding with None raises TypeError
and decoding with an unknown name raises LookupError. -/
def decodeNoneFails : List Nat → Option (List Char) → Except PyExc (List Char) :=
  fun _ enc =>
    match enc with
    | none => .error .typeError
    | some _ => .error .lookupError

/-- Context whose detector returns None and whose decode always raises. -/
def ctxNone : Ctx := ⟨detectNone, decodeNoneFails⟩

theorem findSub_nil_pat (b : List Nat) : findSub b [] = some 0 := by
  cases b <;> simp [findSub]

theorem findSub_bound {buf pat : List Nat} {i : Nat}
    (h : findSub buf pat = some i) : i + pat.length ≤ buf.length := by
  induction buf generalizing i with
  | nil =>
      by_cases hp : pat = ([] : List Nat)
      · subst hp
        simp [findSub] at h
        subst h
        simp
      · simp [findSub, hp] at h
  | cons x rest ih =>
      rw [findSub] at h
      by_cases hx : (x :: rest).take pat.length = pat
      · simp [hx] at h
        have : pat.length = min pat.length (x :: rest).length := by
          conv_lhs => rw [← hx]
          rw [List.length_take]
        subst h
        simp at this ⊢
        omega
      · simp [hx] at h
        obtain ⟨j, hj, hji⟩ := h
        have := ih hj
        subst hji
        simp
        omega

theorem take_eq_of_append {u v pat : List Nat} (hn : pat.length ≤ u.length)
    (h : (u ++ v).take pat.length = pat) : u.take pat.length = pat := by
  rw [List.take_append_of_le_length hn] at h
  exact h

/-- A found occurrence is stable under appending more bytes: the first match
index does not move when the buffer grows at the end. -/
theorem findSub_append {a : List Nat} (b : List Nat) {pat : List Nat} {i : Nat}
    (h : findSub a pat = some i) : findSub (a ++ b) pat = some i := by
  induction a generalizing i with
  | nil =>
      by_cases hp : pat = ([] : List Nat)
      · subst hp
        simp [findSub] at h
        subst h
        simpa using findSub_nil_pat b
      · simp [findSub, hp] at h
  | cons x rest ih =>
      rw [findSub] at h
      by_cases hx : (x :: rest).take pat.length = pat
      · simp [hx] at h
        subst h
        rw [List.cons_append, findSub]
        have : ((x :: rest) ++ b).take pat.length = pat := by
          have hn : pat.length ≤ (x :: rest).length := by
            conv_lhs => rw [← hx]
            simp
          rw [List.take_append_of_le_length hn]
          exact hx
        rw [List.cons_append] at this
        simp [this]
      · simp [hx] at h
        obtain ⟨j, hj, hji⟩ := h
        have hrb := ih hj
        have hb := findSub_bound hj
        rw [List.cons_append, findSub]
        have hx2 : ¬ (x :: (rest ++ b)).take pat.length = pat := by
          intro hc
          have hn : pat.length ≤ (x :: rest).length := by
            simp
            omega
          rw [show x :: (rest ++ b) = (x :: rest) ++ b from rfl] at hc
          exact hx (take_eq_of_append hn hc)
        simp [hx2, hrb]
        omega

theorem BLOCK_DELIMITER_ne_nil : BLOCK_DELIMITER ≠ [] := by decide

theorem BLOCK_DELIMITER_length : BLOCK_DELIMITER.length = 14 := by decide

theorem findSub_nil_of_ne {pat : List Nat} (h : pat ≠ []) :
    findSub [] pat = none := by
  simp [findSub, h]

theorem drainGo_none {buf : List Nat} (h : findSub buf BLOCK_DELIMITER = none) :
    ∀ fuel, drainGo fuel buf = ([], buf) := by
  intro fuel
  cases fuel with
  | zero => rfl
  | succ f => rw [drainGo, h]

theorem drainGo_succ_eq {fuel : Nat} :
    ∀ buf : List Nat, buf.length ≤ fuel → drainGo (fuel + 1) buf = drainGo fuel buf := by
  induction fuel with
  | zero =>
      intro buf hlen
      have : buf = [] := by
        cases buf with
        | nil => rfl
        | cons x r => simp at hlen
      subst this
      rw [drainGo_none (findSub_nil_of_ne BLOCK_DELIMITER_ne_nil)]
      rfl
  | succ f ih =>
      intro buf hlen
      rw [drainGo, drainGo]
      cases hfs : findSub buf BLOCK_DELIMITER with
      | none => rfl
      | some i =>
          have hb := findSub_bound hfs
          rw [BLOCK_DELIMITER_length] at hb
          have hrest : (buf.drop (i + 2 * LINE_DELIMITER.length)).length ≤ f := by
            rw [List.length_drop]
            simp [LINE_DELIMITER]
            omega
          simp only []
          rw [ih _ hrest]

theorem drainGo_stable {buf : List Nat} {fuel : Nat} (h : buf.length ≤ fuel) :
    drainGo fuel buf = drainBuffer buf := by
  unfold drainBuffer
  obtain ⟨d, rfl⟩ : ∃ d, fuel = buf.length + d := ⟨fuel - buf.length, by omega⟩
  induction d with
  | zero => rfl
  | succ k ih =>
      rw [show buf.length + (k + 1) = (buf.length + k) + 1 from rfl]
      rw [drainGo_succ_eq buf (by omega)]
      exact ih (by omega)

/-- Unfolding rule for drainBuffer when a delimiter occurrence exists. -/
theorem drainBuffer_found {buf : List Nat} {i : Nat}
    (h : findSub buf BLOCK_DELIMITER = some i) :
    drainBuffer buf =
      ((buf.take (i + LINE_DELIMITER.length)) ::
        (drainBuffer (buf.drop (i + 2 * LINE_DELIMITER.length))).1,
       (drainBuffer (buf.drop (i + 2 * LINE_DELIMITER.length))).2) := by
  have hb := findSub_bound h
  rw [BLOCK_DELIMITER_length] at hb
  have hpos : 0 < buf.length := by omega
  unfold drainBuffer
  obtain ⟨m, hm⟩ : ∃ m, buf.length = m + 1 := ⟨buf.length - 1, by omega⟩
  rw [hm, drainGo, h]
  have hrest : (buf.drop (i + 2 * LINE_DELIMITER.length)).length ≤ m := by
    rw [List.length_drop]
    simp [LINE_DELIMITER]
    omega
  simp only []
  rw [drainGo_stable hrest]
  rfl

theorem drainBuffer_none {buf : List Nat} (h : findSub buf BLOCK_DELIMITER = none) :
    drainBuffer buf = ([], buf) :=
  drainGo_none h _

/-- The remainder left by a drain contains no further delimiter occurrence. -/
theorem drainBuffer_rest_none (buf : List Nat) :
    findSub (drainBuffer buf).2 BLOCK_DELIMITER = none := by
  have : ∀ n (buf : List Nat), buf.length ≤ n →
      findSub (drainBuffer buf).2 BLOCK_DELIMITER = none := by
    intro n
    induction n with
    | zero =>
        intro buf hlen
        have : buf = [] := by
          cases buf with
          | nil => rfl
          | cons x r => simp at hlen
        subst this
        rw [drainBuffer_none (findSub_nil_of_ne BLOCK_DELIMITER_ne_nil)]
        exact findSub_nil_of_ne BLOCK_DELIMITER_ne_nil
    | succ m ih =>
        intro buf hlen
        cases hfs : findSub buf BLOCK_DELIMITER with
        | none => rw [drainBuffer_none hfs]; exact hfs
        | some i =>
            have hb := findSub_bound hfs
            rw [BLOCK_DELIMITER_length] at hb
            rw [drainBuffer_found hfs]
            apply ih
            rw [List.length_drop]
            simp [LINE_DELIMITER]
            omega
  exact this buf.length buf le_rfl

/-- Draining an extended buffer first performs exactly the cuts of the
original buffer and then continues on the remainder plus the new bytes.
This is the heart of chunk-boundary invariance: a cut made on a partial
buffer is never invalidated by bytes that arrive later. -/
theorem drainBuffer_append : ∀ (a b : List Nat),
    drainBuffer (a ++ b) =
      ((drainBuffer a).1 ++ (drainBuffer ((drainBuffer a).2 ++ b)).1,
       (drainBuffer ((drainBuffer a).2 ++ b)).2) := by
  have main : ∀ n (a b : List Nat), a.length ≤ n →
      drainBuffer (a ++ b) =
        ((drainBuffer a).1 ++ (drainBuffer ((drainBuffer a).2 ++ b)).1,
         (drainBuffer ((drainBuffer a).2 ++ b)).2) := by
    intro n
    induction n with
    | zero =>
        intro a b hlen
        have ha : a = [] := by
          cases a with
          | nil => rfl
          | cons x r => simp at hlen
        subst ha
        rw [drainBuffer_none (findSub_nil_of_ne BLOCK_DELIMITER_ne_nil)]
        simp
    | succ m ih =>
        intro a b hlen
        cases hfs : findSub a BLOCK_DELIMITER with
        | none =>
            rw [drainBuffer_none hfs]
            simp
        | some i =>
            have hb := findSub_bound hfs
            rw [BLOCK_DELIMITER_length] at hb
            have hfs2 : findSub (a ++ b) BLOCK_DELIMITER = some i := findSub_append b hfs
            rw [drainBuffer_found hfs2, drainBuffer_found hfs]
            have htake : (a ++ b).take (i + LINE_DELIMITER.length) =
                a.take (i + LINE_DELIMITER.length) := by
              apply List.take_append_of_le_length
              simp [LINE_DELIMITER]
              omega
            have hdrop : (a ++ b).drop (i + 2 * LINE_DELIMITER.length) =
                a.drop (i + 2 * LINE_DELIMITER.length) ++ b := by
              apply List.drop_append_of_le_length
              simp [LINE_DELIMITER]
              omega
            rw [htake, hdrop]
            have hlen2 : (a.drop (i + 2 * LINE_DELIMITER.length)).length ≤ m := by
              rw [List.length_drop]
              simp [LINE_DELIMITER]
              omega
            rw [ih _ b hlen2]
            simp
  exact fun a b => main a.length a b le_rfl

/-- The chunked splitting loop equals drain-then-flush of the concatenated
remaining input, whenever the starting buffer holds no delimiter. -/
theorem splitGo_canonical : ∀ (cs : List (List Nat)) (buf : List Nat),
    findSub buf BLOCK_DELIMITER = none →
    splitGo cs buf =
      (drainBuffer (buf ++ cs.flatten)).1 ++
        flushTail (drainBuffer (buf ++ cs.flatten)).2 := by
  intro cs
  induction cs with
  | nil =>
      intro buf h
      rw [splitGo]
      simp only [List.flatten_nil, List.append_nil]
      rw [drainBuffer_none h]
      rfl
  | cons c rest ih =>
      intro buf h
      rw [splitGo]
      have h2 := drainBuffer_rest_none (buf ++ c)
      rw [ih _ h2]
      have hassoc : buf ++ (c :: rest).flatten = (buf ++ c) ++ rest.flatten := by
        simp
      rw [hassoc, drainBuffer_append (buf ++ c) rest.flatten]
      simp only []
      rw [List.append_assoc]

theorem chunksOfGo_flatten {k : Nat} (hk : 0 < k) :
    ∀ n (s : List Nat), s.length ≤ n → (chunksOfGo k n s).flatten = s := by
  intro n
  induction n with
  | zero =>
      intro s h
      have : s = [] := by
        cases s with
        | nil => rfl
        | cons x r => simp at h
      subst this
      rfl
  | succ m ih =>
      intro s h
      cases s with
      | nil => rfl
      | cons x t =>
          rw [show chunksOfGo k (m + 1) (x :: t) =
                (x :: t).take k :: chunksOfGo k m ((x :: t).drop k) from rfl]
          rw [List.flatten_cons]
          rw [ih ((x :: t).drop k) (by rw [List.length_drop]; simp at h ⊢; omega)]
          exact List.take_append_drop k (x :: t)

theorem chunksOf_flatten {k : Nat} (hk : 0 < k) (s : List Nat) :
    (chunksOf k s).flatten = s := by
  unfold chunksOf
  rw [if_neg (by omega)]
  exact chunksOfGo_flatten hk s.length s le_rfl

theorem parseRawChunked_eq_parseRaw {k : Nat} (hk : 0 < k) (s : List Nat) :
    parseRawChunked k s = parseRaw s := by
  unfold parseRawChunked parseRaw
  rw [splitGo_canonical _ _ (findSub_nil_of_ne BLOCK_DELIMITER_ne_nil),
      splitGo_canonical _ _ (findSub_nil_of_ne BLOCK_DELIMITER_ne_nil)]
  rw [chunksOf_flatten hk]
  simp

/-- C5: splitting the same input with read-chunk size 1, 7 or 4096 produces
exactly the raw record slices of reading the whole input at once: no
delimiter occurrence is missed or cut twice because of chunk boundaries. -/
theorem c5_chunk_boundary_invariance (s : List Nat) :
    parseRawChunked 1 s = parseRaw s ∧
    parseRawChunked 7 s = parseRaw s ∧
    parseRawChunked 4096 s = parseRaw s :=
  ⟨parseRawChunked_eq_parseRaw (by omega) s,
   parseRawChunked_eq_parseRaw (by omega) s,
   parseRawChunked_eq_parseRaw (by omega) s⟩

theorem LINE_DELIMITER_length : LINE_DELIMITER.length = 2 := by decide

theorem wMarkerTail_ne_nil : wMarkerTail ≠ [] := by decide

theorem drainBuffer_stream : ∀ (rs : List (List Nat)) (a : List Nat),
    cleanFrom a rs = true →
    drainBuffer (a ++ (rs.map (fun x => BLOCK_DELIMITER ++ x)).flatten) =
      (cutSlices a rs, finalRem a rs) := by
  intro rs
  induction rs with
  | nil =>
      intro a h
      rw [cleanFrom, beq_iff_eq] at h
      rw [List.map_nil, List.flatten_nil, List.append_nil, drainBuffer_none h]
      rfl
  | cons r rest ih =>
      intro a h
      rw [cleanFrom, Bool.and_eq_true, beq_iff_eq] at h
      obtain ⟨h1, h2⟩ := h
      have hstream : a ++ ((r :: rest).map (fun x => BLOCK_DELIMITER ++ x)).flatten =
          (a ++ BLOCK_DELIMITER) ++
            (r ++ (rest.map (fun x => BLOCK_DELIMITER ++ x)).flatten) := by
        simp
      rw [hstream]
      have hf := findSub_append
        (r ++ (rest.map (fun x => BLOCK_DELIMITER ++ x)).flatten) h1
      rw [drainBuffer_found hf]
      have htake : ((a ++ BLOCK_DELIMITER) ++
          (r ++ (rest.map (fun x => BLOCK_DELIMITER ++ x)).flatten)).take
            (a.length + LINE_DELIMITER.length) = a ++ LINE_DELIMITER := by
        rw [List.append_assoc, List.take_append]
        rw [List.take_append_of_le_length (by decide)]
        rfl
      have hdrop : ((a ++ BLOCK_DELIMITER) ++
          (r ++ (rest.map (fun x => BLOCK_DELIMITER ++ x)).flatten)).drop
            (a.length + 2 * LINE_DELIMITER.length) =
          (wMarkerTail ++ r) ++ (rest.map (fun x => BLOCK_DELIMITER ++ x)).flatten := by
        rw [List.append_assoc, List.drop_append]
        rw [List.drop_append_of_le_length (by decide)]
        rw [List.append_assoc]
        rfl
      rw [htake, hdrop, ih _ h2]
      rfl

theorem slicesFrom_eq : ∀ (rs : List (List Nat)) (a : List Nat),
    slicesFrom a rs = cutSlices a rs ++ [finalRem a rs] := by
  intro rs
  induction rs with
  | nil => intro a; rfl
  | cons r rest ih =>
      intro a
      rw [slicesFrom, cutSlices, finalRem, ih]
      rfl

theorem slicesFrom_length : ∀ (rs : List (List Nat)) (a : List Nat),
    (slicesFrom a rs).length = rs.length + 1 := by
  intro rs
  induction rs with
  | nil => intro a; rfl
  | cons r rest ih =>
      intro a
      rw [slicesFrom, List.length_cons, ih]
      rfl

theorem finalRem_ne_nil : ∀ (rs : List (List Nat)) (a : List Nat),
    a ≠ [] → finalRem a rs ≠ [] := by
  intro rs
  induction rs with
  | nil => intro a ha; exact ha
  | cons r rest ih =>
      intro a ha
      rw [finalRem]
      apply ih
      intro hc
      exact wMarkerTail_ne_nil (List.append_eq_nil.mp hc).1

theorem parseRaw_eq (s : List Nat) :
    parseRaw s = (drainBuffer s).1 ++ flushTail (drainBuffer s).2 := by
  rw [parseRaw, splitGo]
  simp only [List.nil_append]
  rw [splitGo]
  rfl

theorem intercalate_marker : ∀ (rs : List (List Nat)) (r : List Nat),
    List.intercalate BLOCK_DELIMITER (r :: rs) =
      r ++ (rs.map (fun x => BLOCK_DELIMITER ++ x)).flatten := by
  intro rs
  induction rs with
  | nil => intro r; simp [List.intercalate]
  | cons x xs ih =>
      intro r
      have hstep : List.intercalate BLOCK_DELIMITER (r :: x :: xs) =
          r ++ BLOCK_DELIMITER ++ List.intercalate BLOCK_DELIMITER (x :: xs) := by
        simp [List.intercalate, List.intersperse]
      rw [hstep, ih x]
      simp

/-- C1 (amended): on a stream record_1 + MARKER + ... + MARKER + record_n the
splitting loop of Parser.parse cuts exactly n raw slices in stream order, but
only the first slice is record_1 plus one trailing line delimiter; every
later slice keeps the ten marker bytes WARC/1.0 plus line delimiter at its
front, and the final slice carries no appended trailing delimiter. -/
theorem c1_split_slices (r : List Nat) (rest : List (List Nat))
    (hclean : cleanFrom r rest = true) (hne : rest = [] → r ≠ []) :
    parseRaw (List.intercalate BLOCK_DELIMITER (r :: rest)) = slicesFrom r rest ∧
    (slicesFrom r rest).length = (r :: rest).length := by
  constructor
  · rw [intercalate_marker, parseRaw_eq, drainBuffer_stream rest r hclean]
    have hfin : finalRem r rest ≠ [] := by
      cases rest with
      | nil => exact hne rfl
      | cons x xs =>
          rw [finalRem]
          apply finalRem_ne_nil
          intro hc
          exact wMarkerTail_ne_nil (List.append_eq_nil.mp hc).1
    rw [slicesFrom_eq]
    simp only [flushTail]
    rw [if_pos (List.length_pos.mpr hfin)]
  · rw [slicesFrom_length, List.length_cons]

/-- C1 as stated is false: for the stream built from records [65] and [66],
the slices after stripping one trailing line delimiter are not the records
byte-for-byte; the second slice starts with the ten bytes WARC/1.0 CR LF. -/
theorem c1_counterexample :
    (parseRaw (List.intercalate BLOCK_DELIMITER [[65], [66]])).map stripTrailingDelim ≠
      [[65], [66]] := by decide

theorem c1_witness :
    cleanFrom [65] [[66], [67]] = true ∧
    parseRaw (List.intercalate BLOCK_DELIMITER [[65], [66], [67]]) =
      slicesFrom [65] [[66], [67]] ∧
    (slicesFrom [65] [[66], [67]]).length = ([[65], [66], [67]] : List (List Nat)).length :=
  ⟨by decide,
   (c1_split_slices [65] [[66], [67]] (by decide) (fun h => by simp at h)).1,
   (c1_split_slices [65] [[66], [67]] (by decide) (fun h => by simp at h)).2⟩

theorem pySplit_head (sep : Char) : ∀ l : List Char,
    ∃ t, pySplit sep l = l.takeWhile (fun c => !(c == sep)) :: t := by
  intro l
  induction l with
  | nil => exact ⟨[], rfl⟩
  | cons c rest ih =>
      obtain ⟨t, ht⟩ := ih
      by_cases hc : c = sep
      · refine ⟨pySplit sep rest, ?_⟩
        rw [pySplit]
        simp [hc]
      · refine ⟨t, ?_⟩
        rw [pySplit]
        simp only [if_neg hc, ht]
        simp [hc]

theorem intercalate_singleton (s a : List Char) : List.intercalate s [a] = a := by
  simp [List.intercalate]

/-- C2 (amended): only the first colon splits key from value, but each
colon-separated piece is stripped of surrounding whitespace individually
before the pieces after the first are rejoined with ':'. In particular the
line X-Custom: a: b: c yields the value a:b:c, not a: b: c. -/
theorem c2_colon_handling (l : List Char) (h : 2 ≤ (pySplit ':' l).length) :
    (splitKV l).1 = pstrip (l.takeWhile (fun c => !(c == ':'))) ∧
    (splitKV l).2 = List.intercalate [':'] (((pySplit ':' l).map pstrip).tail) := by
  obtain ⟨t, ht⟩ := pySplit_head ':' l
  cases t with
  | nil => rw [ht] at h; simp at h
  | cons x xs =>
      cases xs with
      | nil =>
          rw [splitKV, ht]
          exact ⟨rfl, by simp [intercalate_singleton]⟩
      | cons y ys =>
          rw [splitKV, ht]
          exact ⟨rfl, rfl⟩

/-- C2 as stated is false: the value is not everything after the first colon
unchanged, because every piece is stripped before rejoining. -/
theorem c2_counterexample :
    splitKV "X-Custom: a: b: c".toList ≠ ("X-Custom".toList, "a: b: c".toList) := by
  decide

theorem c2_witness :
    2 ≤ (pySplit ':' "X-Custom: a: b: c".toList).length ∧
    (splitKV "X-Custom: a: b: c".toList).1 =
      pstrip ("X-Custom: a: b: c".toList.takeWhile (fun c => !(c == ':'))) ∧
    (splitKV "X-Custom: a: b: c".toList).2 =
      List.intercalate [':']
        (((pySplit ':' "X-Custom: a: b: c".toList).map pstrip).tail) :=
  ⟨by decide,
   (c2_colon_handling _ (by decide)).1,
   (c2_colon_handling _ (by decide)).2⟩

/-- C6 as stated is false: the marker is not the twelve-byte sequence
line delimiter + WARC/1.0 + line delimiter. -/
theorem c6_counterexample :
    BLOCK_DELIMITER ≠
      LINE_DELIMITER ++ ("WARC/1.0".toList.map Char.toNat) ++ LINE_DELIMITER := by
  decide

/-- C6 (amended): BLOCK_DELIMITER is the fourteen-byte sequence
CR LF CR LF W A R C / 1 . 0 CR LF, i.e. two leading line delimiters, the
ASCII text WARC/1.0, and one trailing line delimiter. -/
theorem c6_block_delimiter_value :
    BLOCK_DELIMITER = [13, 10, 13, 10, 87, 65, 82, 67, 47, 49, 46, 48, 13, 10] := by
  decide

/-- C3: a detection confidence strictly below one half fails with
EncodingDetectionError and the result does not depend on the decode
primitive at all (no decode is attempted); a confidence of at least one
half decodes with the proposed encoding, and a successful decode yields the
decoded body paired with that encoding name. -/
theorem c3_confidence_gate (ctx : Ctx) (body : List Nat) :
    ((ctx.detect body).confidence < 1/2 →
      parseBody ctx body = .error (.encodingDetectionError (ctx.detect body).encoding) ∧
      ∀ ctx2 : Ctx, ctx2.detect = ctx.detect → parseBody ctx2 body = parseBody ctx body) ∧
    (1/2 ≤ (ctx.detect body).confidence →
      ∀ s, ctx.decodeWith body (ctx.detect body).encoding = .ok s →
        parseBody ctx body = .ok (s, (ctx.detect body).encoding)) := by
  constructor
  · intro hlt
    constructor
    · simp only [parseBody]
      rw [if_pos hlt]
    · intro ctx2 hd
      simp only [parseBody, hd]
      rw [if_pos hlt, if_pos hlt]
  · intro hge s hok
    simp only [parseBody]
    rw [if_neg (not_lt.mpr hge), hok]

theorem c3_witness :
    ((ctxLow.detect []).confidence < 1/2 ∧
      parseBody ctxLow [] = .error (.encodingDetectionError (some "ascii".toList))) ∧
    (1/2 ≤ (ctxHalf.detect []).confidence ∧
      parseBody ctxHalf [] = .ok ([], some "ascii".toList)) :=
  ⟨⟨by norm_num [ctxLow, detectLow],
    ((c3_confidence_gate ctxLow []).1 (by norm_num [ctxLow, detectLow])).1⟩,
   ⟨by norm_num [ctxHalf, detectHalf],
    (c3_confidence_gate ctxHalf []).2 (by norm_num [ctxHalf, detectHalf]) [] rfl⟩⟩

/-- C9: when the block holds no occurrence of two consecutive line
delimiters, find returns -1, so the header is parsed from block[0:1] (the
first byte only) and the body from block[3:]; construction proceeds with
this mis-split instead of failing with a framing error. -/
theorem c9_missing_boundary (ctx : Ctx) (cs : Bool) (block : List Nat)
    (h : findSub block (LINE_DELIMITER ++ LINE_DELIMITER) = none) :
    mkWetEntry ctx cs block =
      match parseBody ctx (block.drop 3) with
      | .ok bd => .ok ⟨parseHeaderBlock (block.take 1) cs, bd.1, bd.2⟩
      | .error e => .error e := by
  rw [mkWetEntry]
  simp only [pyFind, h]
  norm_num [LINE_DELIMITER]
  rfl

theorem c9_witness :
    findSub [65, 66, 67, 68] (LINE_DELIMITER ++ LINE_DELIMITER) = none ∧
    mkWetEntry ctxHalf true [65, 66, 67, 68] =
      match parseBody ctxHalf ([65, 66, 67, 68].drop 3) with
      | .ok bd => .ok ⟨parseHeaderBlock ([65, 66, 67, 68].take 1) true, bd.1, bd.2⟩
      | .error e => .error e :=
  ⟨by decide, c9_missing_boundary ctxHalf true _ (by decide)⟩

/-- C10: whatever exception the decode call raises (invalid bytes, unknown
encoding name, None from the detector, anything else), the unqualified
except clause converts it into DecodingFailureError carrying the proposed
encoding and the first twenty body bytes, so the error is classified and
the parse loop skips the record instead of propagating the original. -/
theorem c10_bare_except (ctx : Ctx) (body : List Nat) (e : PyExc)
    (hconf : ¬ (ctx.detect body).confidence < 1/2)
    (hdec : ctx.decodeWith body (ctx.detect body).encoding = .error e) :
    parseBody ctx body =
      .error (.decodingFailureError (ctx.detect body).encoding (body.take 20)) := by
  simp only [parseBody]
  rw [if_neg hconf, hdec]

theorem c10_witness :
    (¬ (ctxNone.detect [1, 2, 3]).confidence < 1/2) ∧
    ctxNone.decodeWith [1, 2, 3] (ctxNone.detect [1, 2, 3]).encoding = .error .typeError ∧
    parseBody ctxNone [1, 2, 3] = .error (.decodingFailureError none [1, 2, 3]) :=
  ⟨by norm_num [ctxNone, detectNone],
   rfl,
   c10_bare_except ctxNone [1, 2, 3] .typeError (by norm_num [ctxNone, detectNone]) rfl⟩

theorem drainParse_eq_drainGo (ctx : Ctx) (cs : Bool) :
    ∀ (fuel : Nat) (buf : List Nat),
      drainParse ctx cs fuel buf =
        ((processSlices ctx cs (drainGo fuel buf).1).1,
         (processSlices ctx cs (drainGo fuel buf).1).2.1,
         (processSlices ctx cs (drainGo fuel buf).1).2.2,
         (drainGo fuel buf).2) := by
  intro fuel
  induction fuel with
  | zero => intro buf; rfl
  | succ f ih =>
      intro buf
      rw [drainParse, drainGo]
      cases hfs : findSub buf BLOCK_DELIMITER with
      | none => rfl
      | some i =>
          simp only []
          rw [ih]
          cases hmk : mkWetEntry ctx cs (buf.take (i + LINE_DELIMITER.length)) with
          | ok e => simp [processSlices, hmk]
          | error err => simp [processSlices, hmk]

theorem processSlices_append (ctx : Ctx) (cs : Bool) :
    ∀ (a b : List (List Nat)),
      processSlices ctx cs (a ++ b) =
        ((processSlices ctx cs a).1 ++ (processSlices ctx cs b).1,
         (processSlices ctx cs a).2.1 + (processSlices ctx cs b).2.1,
         (processSlices ctx cs a).2.2 + (processSlices ctx cs b).2.2) := by
  intro a b
  induction a with
  | nil => simp [processSlices]
  | cons sl rest ih =>
      rw [List.cons_append, processSlices, processSlices, ih]
      cases hmk : mkWetEntry ctx cs sl with
      | ok e =>
          simp only [hmk, Prod.mk.injEq]
          refine ⟨?_, ?_, ?_⟩ <;> first | trivial | omega
      | error err =>
          simp only [hmk, Prod.mk.injEq]
          refine ⟨?_, ?_, ?_⟩ <;> first | trivial | omega

theorem parseChunksGo_eq_splitGo (ctx : Ctx) (cs : Bool) :
    ∀ (chunks : List (List Nat)) (buf : List Nat),
      parseChunksGo ctx cs chunks buf = processSlices ctx cs (splitGo chunks buf) := by
  intro chunks
  induction chunks with
  | nil =>
      intro buf
      rw [parseChunksGo, splitGo]
      by_cases hb : 0 < buf.length
      · rw [if_pos hb, if_pos hb]
        cases hmk : mkWetEntry ctx cs buf with
        | ok e => simp [processSlices, hmk]
        | error err => simp [processSlices, hmk]
      · rw [if_neg hb, if_neg hb]
        rfl
  | cons c rest ih =>
      intro buf
      rw [parseChunksGo, splitGo]
      rw [drainParse_eq_drainGo, ih, processSlices_append]
      rfl

theorem processSlices_spec (ctx : Ctx) (cs : Bool) :
    ∀ sls : List (List Nat),
      (processSlices ctx cs sls).1 =
        sls.filterMap (fun sl => (mkWetEntry ctx cs sl).toOption) ∧
      (processSlices ctx cs sls).2.1 =
        (sls.filter (fun sl => (mkWetEntry ctx cs sl).toOption.isSome)).length ∧
      (processSlices ctx cs sls).2.2 =
        (sls.filter (fun sl => (mkWetEntry ctx cs sl).toOption.isNone)).length := by
  intro sls
  induction sls with
  | nil => exact ⟨rfl, rfl, rfl⟩
  | cons sl rest ih =>
      obtain ⟨h1, h2, h3⟩ := ih
      rw [processSlices]
      cases hmk : mkWetEntry ctx cs sl with
      | ok e =>
          simp [List.filterMap_cons, List.filter_cons, hmk, Except.toOption, h1, h2, h3]
      | error err =>
          simp [List.filterMap_cons, List.filter_cons, hmk, Except.toOption, h1, h2, h3]

/-- C4: over a whole run, every slice whose decode raises one of the two
classified errors contributes no yielded entry and exactly one
skip-counter increment, while the raw cutting (including the unconditional
buffer advance past the record and both line delimiters) is the pure
splitter splitGo, which processes every following slice: no classified
error terminates the parse. Entries are exactly the successful slices in
stream order, the loaded counter counts the successes and the skip counter
counts the failures. -/
theorem c4_classified_errors_skip (ctx : Ctx) (cs : Bool)
    (chunks : List (List Nat)) (p : Parser) :
    (p.parse ctx cs chunks).1 =
      (splitGo chunks []).filterMap (fun sl => (mkWetEntry ctx cs sl).toOption) ∧
    (p.parse ctx cs chunks).2.loaded_counter =
      ((splitGo chunks []).filter
        (fun sl => (mkWetEntry ctx cs sl).toOption.isSome)).length ∧
    (p.parse ctx cs chunks).2.skip_counter =
      ((splitGo chunks []).filter
        (fun sl => (mkWetEntry ctx cs sl).toOption.isNone)).length := by
  obtain ⟨h1, h2, h3⟩ := processSlices_spec ctx cs (splitGo chunks [])
  have hpc := parseChunksGo_eq_splitGo ctx cs chunks []
  refine ⟨?_, ?_, ?_⟩
  · show (parseChunksGo ctx cs chunks []).1 = _
    rw [hpc, h1]
  · show 0 + (parseChunksGo ctx cs chunks []).2.1 = _
    rw [hpc, h2, Nat.zero_add]
  · show 0 + (parseChunksGo ctx cs chunks []).2.2 = _
    rw [hpc, h3, Nat.zero_add]

/-- C7: the final counters of a parse run do not depend on the parser state
the invocation started from; in particular a second parse on the same
instance leaves exactly the second run's values, never cumulative totals. -/
theorem c7_counter_reset (p q : Parser) (ctx1 : Ctx) (cs1 : Bool)
    (in1 : List (List Nat)) (ctx2 : Ctx) (cs2 : Bool) (in2 : List (List Nat)) :
    ((p.parse ctx1 cs1 in1).2.parse ctx2 cs2 in2) = Parser.init.parse ctx2 cs2 in2 ∧
    p.parse ctx2 cs2 in2 = q.parse ctx2 cs2 in2 :=
  ⟨rfl, rfl⟩

/-- C8 is violated by the source: a run that attempts zero records ends with
both counters zero, and the end-of-run report divides by
loaded + skipped = 0 with no guard, raising ZeroDivisionError instead of
reporting a no-records outcome. -/
theorem c8_zero_records_faults (ctx : Ctx) (cs : Bool) :
    (Parser.init.parse ctx cs []).2 = Parser.init ∧
    mainSkipRatio (Parser.init.parse ctx cs []).2 = .error .zeroDivisionError :=
  ⟨rfl, rfl⟩

end Warc
